import Mathlib

/-!
Verification of the ABI schema compiler and binary codec of pyo3-antelope-rs
against its natural-language specification.

The definitions below are a shallow embedding of the Python sources:
  * `src/antelope_rs/abi/_defs.py`      — schema data model and `_hash`
  * `src/antelope_rs/abi/_validation.py`— `validate_definition` and its checks
  * `src/antelope_rs/abi/_struct.py`    — `Struct._encode_val` / `Struct.from_bytes`
                                          and `Variant.from_bytes` / `Variant.to_builtins`
  * `src/antelope_rs/abi/_struct_ns.py` — `_wrap_as_struct`, variant union building
  * `src/antelope_rs/abi/structs.py`    — `gen_eq_for_cls`
  * `src/antelope_rs/meta.py`           — builtin leaf codecs (`UInt32`, `builtin_class_map`)

Bytes are modelled as `List Nat`; Python `None`/list/scalar values as `PyVal`;
fallible Python code (exceptions) as `Option`/`Except`.
-/

namespace AntelopeRs

/-! ## Schema data model (`_defs.py`, mirrored in `abi/__init__.py`) -/

/-- `AliasDef`: `{new_type_name, type}` from `_defs.py`. -/
structure AliasDef where
  new_type_name : String
  type_ : String
deriving DecidableEq, Repr

/-- `FieldDef`: `{name, type}` from `_defs.py`. -/
structure FieldDef where
  name : String
  type_ : String
deriving DecidableEq, Repr

/-- `StructDef`: `{name, fields, base}` from `_defs.py`.  `base = some ""` is
possible since `BaseTypeNameStr` admits the empty string. -/
structure StructDef where
  name : String
  fields : List FieldDef
  base : Option String := none
deriving DecidableEq, Repr

/-- `VariantDef`: `{name, types}` from `_defs.py`. -/
structure VariantDef where
  name : String
  types : List String
deriving DecidableEq, Repr

/-- `ActionDef` from `_defs.py`; metadata outside the codec core. -/
structure ActionDef where
  name : String
  type_ : String
  ricardian_contract : String
deriving DecidableEq, Repr

/-- `TableDef` from `_defs.py`; metadata outside the codec core. -/
structure TableDef where
  name : String
  key_names : List String
  key_types : List String
  index_type : String
  type_ : String
deriving DecidableEq, Repr

/-- The raw schema: the fields of an `ABI` object that the patched
properties `types`/`structs`/`variants`/`actions`/`tables` expose. -/
structure ABIDef where
  types : List AliasDef
  structs : List StructDef
  variants : List VariantDef
  actions : List ActionDef := []
  tables : List TableDef := []
deriving DecidableEq, Repr

/-- The builtin type names: the keys of `builtin_class_map` in `meta.py`
(the Rust-side `builtin_types` list consumed by `_validation.py` mirrors
this map; `meta.py` asserts each entry satisfies the codec protocol). -/
def builtin_types : List String :=
  ["bool",
   "int8", "int16", "int32", "int64", "int128",
   "uint8", "uint16", "uint32", "uint64", "uint128",
   "varuint32", "varint32",
   "float32", "float64", "float128",
   "time_point", "time_point_sec", "block_timestamp_type",
   "name",
   "bytes", "string",
   "checksum160", "checksum256", "checksum512",
   "public_key", "signature",
   "symbol", "symbol_code",
   "asset", "extended_asset"]

/-! ## `_bare` and the `$` suffix test (`_validation.py`) -/

/-- Loop `while name and name[-1] in ('?', '$')` of `_bare`, on the reversed
character list. -/
def stripQD : List Char → List Char
  | [] => []
  | c :: r => if c = '?' ∨ c = '$' then stripQD r else c :: r

/-- Loop `while name.endswith('[]')` of `_bare`, on the reversed character
list (a trailing `[]` reversed is `']' :: '[' :: _`). -/
def stripArr : List Char → List Char
  | ']' :: '[' :: r => stripArr r
  | l => l

/-- `_bare(name)` from `_validation.py`: strip trailing `?`/`$`, then any
number of trailing `[]`.  (As in the source, a `?`/`$` *under* a trailing
`[]` is not stripped.) -/
def bare (s : String) : String :=
  String.mk ((stripArr (stripQD s.data.reverse)).reverse)

/-- `name.endswith('$')`, the extension-modifier test used throughout
`_validation.py`. -/
def endsDollar (s : String) : Bool :=
  s.data.getLast? == some '$'

/-! ## Validation (`_validation.py`) -/

/-- The typed validation errors of `_validation.py`, plus `keyError` for the
uncaught `KeyError` that `_check_base_struct_extensions` raises when a name
used as a base is not a declared struct. -/
inductive VErr where
  | undefinedType : String → String → VErr
  | duplicateName : String → String → VErr
  | extensionOrder : String → String → VErr
  | baseExtensionField : String → String → VErr
  | cyclicAlias : List String → VErr
  | keyError : VErr
deriving DecidableEq, Repr

/-- `_collect_defined`: builtins plus every declared alias/struct/variant
name (a Python set; only membership is ever used). -/
def collectDefined (d : ABIDef) : List String :=
  builtin_types
    ++ d.types.map (fun a => a.new_type_name)
    ++ d.structs.map (fun s => s.name)
    ++ d.variants.map (fun v => v.name)

/-- The `(kind, name)` sequence `_check_duplicates` walks: aliases (kind
`type`, keyed by `new_type_name`), then structs, then variants. -/
def declaredNames (d : ABIDef) : List (String × String) :=
  d.types.map (fun a => ("type", a.new_type_name))
    ++ d.structs.map (fun s => ("struct", s.name))
    ++ d.variants.map (fun v => ("variant", v.name))

/-- The loop of `_check_duplicates`: `seen` maps an already-visited name to
its kind; a revisited name raises `DuplicateNameError(seen[name], name)`. -/
def checkDupGo : List (String × String) → List (String × String) → Except VErr Unit
  | _, [] => .ok ()
  | seen, (kind, name) :: rest =>
    match seen.find? (fun q => q.1 == name) with
    | some q => .error (.duplicateName q.2 name)
    | none => checkDupGo ((name, kind) :: seen) rest

/-- `_check_duplicates(defn)`. -/
def checkDuplicates (d : ABIDef) : Except VErr Unit :=
  checkDupGo [] (declaredNames d)

/-- `_check_alias_targets(defn, defined)`. -/
def checkAliasTargets (defined : List String) : List AliasDef → Except VErr Unit
  | [] => .ok ()
  | a :: rest =>
    if bare a.type_ ∉ defined then
      .error (.undefinedType ("alias " ++ a.new_type_name) a.type_)
    else checkAliasTargets defined rest

/-- The per-struct field loop of `_check_structs`: `seenExt` is the
`seen_ext` flag; a `$`-suffixed type sets it, a later non-`$` field raises
`ExtensionOrderError`, and each field's bare type must be defined. -/
def checkFields (sname : String) (defined : List String) :
    Bool → List FieldDef → Except VErr Unit
  | _, [] => .ok ()
  | seenExt, f :: rest =>
    if endsDollar f.type_ then
      if bare f.type_ ∈ defined then checkFields sname defined true rest
      else .error (.undefinedType ("field " ++ sname ++ "." ++ f.name) (bare f.type_))
    else if seenExt then .error (.extensionOrder sname f.name)
    else if bare f.type_ ∈ defined then checkFields sname defined seenExt rest
    else .error (.undefinedType ("field " ++ sname ++ "." ++ f.name) (bare f.type_))

/-- The per-struct body of `_check_structs`: the base check
(`if s.base and s.base not in defined`; an empty-string base is falsy in
Python and skips the check) followed by the field loop. -/
def checkStruct (defined : List String) (s : StructDef) : Except VErr Unit :=
  match s.base with
  | some b =>
    if b ≠ "" ∧ b ∉ defined then
      .error (.undefinedType ("struct " ++ s.name ++ " base") b)
    else checkFields s.name defined false s.fields
  | none => checkFields s.name defined false s.fields

/-- `_check_structs(defn, defined)`. -/
def checkStructs (defined : List String) : List StructDef → Except VErr Unit
  | [] => .ok ()
  | s :: rest => do
    checkStruct defined s
    checkStructs defined rest

/-- First-occurrence deduplication.  Models both the Python `set`
comprehension of `_check_base_struct_extensions` (only membership matters
there, so the chosen order is irrelevant to the theorems below) and the
deduplication `typing.Union` applies to the arm classes of a variant's
union annotation (which documented behaviour keeps the first occurrence of
equal members). -/
def pyDedupGo [DecidableEq α] (seen : List α) : List α → List α
  | [] => []
  | x :: rest => if x ∈ seen then pyDedupGo seen rest else x :: pyDedupGo (x :: seen) rest

/-- See `pyDedupGo`. -/
def pyDedup [DecidableEq α] (l : List α) : List α :=
  pyDedupGo [] l

/-- `{s.base for s in defn.structs if s.base}`: the names used as a base
(Python truthiness excludes both `None` and the empty string). -/
def baseNamesOf (structs : List StructDef) : List String :=
  pyDedup ((structs.filterMap (fun s => s.base)).filter (fun b => b ≠ ""))

/-- `by_name = {s.name: s for s in defn.structs}` followed by lookup: a
Python dict keeps the last binding of a repeated key. -/
def byName (structs : List StructDef) (b : String) : Option StructDef :=
  structs.reverse.find? (fun s => s.name == b)

/-- The loop of `_check_base_struct_extensions`: for each base name, look
the struct up (`KeyError` when absent) and raise `BaseExtensionFieldError`
at its first `$`-suffixed field. -/
def checkBaseGo (structs : List StructDef) : List String → Except VErr Unit
  | [] => .ok ()
  | b :: rest =>
    match byName structs b with
    | none => .error .keyError
    | some s =>
      match s.fields.find? (fun f => endsDollar f.type_) with
      | some f => .error (.baseExtensionField b f.name)
      | none => checkBaseGo structs rest

/-- `_check_base_struct_extensions(defn)`. -/
def checkBaseStructExtensions (d : ABIDef) : Except VErr Unit :=
  checkBaseGo d.structs (baseNamesOf d.structs)

/-- `_check_variants(defn, defined)`. -/
def checkVariantArms (vname : String) (defined : List String) : List String → Except VErr Unit
  | [] => .ok ()
  | t :: rest =>
    if bare t ∉ defined then .error (.undefinedType ("variant " ++ vname) (bare t))
    else checkVariantArms vname defined rest

/-- See `checkVariantArms`. -/
def checkVariants (defined : List String) : List VariantDef → Except VErr Unit
  | [] => .ok ()
  | v :: rest => do
    checkVariantArms v.name defined v.types
    checkVariants defined rest

/-! ## Alias-cycle detection (`_detect_alias_cycles`) -/

/-- Insert-or-replace into an association list, keeping the original
position of an existing key: the behaviour of assignment into a Python
dict, used to build `graph = dict comprehension` faithfully even when alias
names repeat. -/
def pyDictSet (d : List (String × α)) (k : String) (v : α) : List (String × α) :=
  match d with
  | [] => [(k, v)]
  | (k0, v0) :: rest => if k0 == k then (k0, v) :: rest else (k0, v0) :: pyDictSet rest k v

/-- `graph = {a.new_type_name: _bare(a.type_) for a in defn.types}`. -/
def mkAliasGraph (aliases : List AliasDef) : List (String × String) :=
  aliases.foldl (fun g a => pyDictSet g a.new_type_name (bare a.type_)) []

/-- `node in graph` / `graph[node]` on the association list. -/
def lookupG (g : List (String × String)) (k : String) : Option String :=
  (g.find? (fun p => p.1 == k)).map Prod.snd

/-- The keys of the graph, in insertion order (`for root in graph`). -/
def graphKeys (g : List (String × String)) : List String :=
  g.map Prod.fst

/-- The inner `while node in graph` loop of `_detect_alias_cycles`: follow
the graph from `node`, accumulating the active `path`; a node already on the
path yields the cycle report `path ++ [node]`.  The source loop is bounded
because every appended node is a fresh graph key, so the fuel
`graph.length + 1` used by `detectAliasCycles` is never exhausted (this is
proved, not assumed, by the detection theorem below). -/
def walkAlias (g : List (String × String)) : Nat → List String → String → Option (List String)
  | 0, _, _ => none
  | fuel + 1, path, node =>
    match lookupG g node with
    | none => none
    | some next =>
      if node ∈ path then some (path ++ [node])
      else walkAlias g fuel (path ++ [node]) next

/-- `_detect_alias_cycles(defn)`: `some chain` models raising
`CyclicAliasError(chain)`. -/
def detectAliasCycles (aliases : List AliasDef) : Option (List String) :=
  (graphKeys (mkAliasGraph aliases)).findSome?
    (fun root => walkAlias (mkAliasGraph aliases) ((mkAliasGraph aliases).length + 1) [] root)

/-- Iterated graph lookup: the alias name reached after `k` hops from `n`,
or `none` when the chain leaves the graph first.  `iterG g (k+1) c = some c`
states that `c` lies on a cycle of the alias graph. -/
def iterG (g : List (String × String)) : Nat → String → Option String
  | 0, n => some n
  | k + 1, n =>
    match lookupG g n with
    | none => none
    | some m => iterG g k m

/-- `validate_definition(defn)`: the checks in their source order. -/
def validateDefinition (d : ABIDef) : Except VErr Unit := do
  let defined := collectDefined d
  checkDuplicates d
  checkAliasTargets defined d.types
  match detectAliasCycles d.types with
  | some chain => Except.error (.cyclicAlias chain)
  | none => Except.ok ()
  checkStructs defined d.structs
  checkBaseStructExtensions d
  checkVariants defined d.variants

/-! ## Unsigned varint (wire format)

Modelled from the spec: `VarUInt32` lives in the Rust extension
`antelope_rs._lowlevel`, not in the Python sources; the spec's wire format
section prescribes "unsigned variable-length integers for array counts and
variant discriminators", the standard ULEB128 encoding (7 data bits per
byte, low group first, continuation bit `0x80`).  `varuintDecode` returns
the value together with the bytes consumed (`encode_length`). -/

/-- Modelled from the spec: ULEB128 encoding of `VarUInt32.from_int(n).encode()`. -/
def varuintEncode (n : Nat) : List Nat :=
  if h : n < 128 then [n]
  else (n % 128 + 128) :: varuintEncode (n / 128)
termination_by n
decreasing_by exact Nat.div_lt_self (by omega) (by omega)

/-- Modelled from the spec: ULEB128 decoding; `some (value, consumed)`, or
`none` when the buffer ends inside the varint. -/
def varuintDecode : List Nat → Option (Nat × Nat)
  | [] => none
  | b :: rest =>
    if b < 128 then some (b, 1)
    else
      match varuintDecode rest with
      | none => none
      | some (v, used) => some ((b - 128) + 128 * v, used + 1)

/-! ## Struct codec runtime (`_struct.py`) -/

/-- The three type modifiers (`TypeModifier` in `_defs.py`), outermost
first in a field's modifier stack. -/
inductive Modifier where
  | optional : Modifier
  | extension : Modifier
  | array : Modifier
deriving DecidableEq, Repr

/-- A Python field value as the codec sees it: `None`, a list, or a leaf
object (a builtin leaf is represented by its numeric payload; the leaf
codec itself is a parameter of the functions below). -/
inductive PyVal where
  | pynone : PyVal
  | leaf : Nat → PyVal
  | plist : List PyVal → PyVal
deriving Repr

mutual

/-- `Struct._encode_val(val, modifiers)`: `lenc` is the leaf's `encode`
(`Option` because e.g. `int.to_bytes` raises on overflow).  With no
modifiers a leaf delegates to its encoder, a list joins its items'
modifier-free encodings, and `None` encodes to nothing (the `$` case);
`optional` emits a presence byte, `extension` emits nothing or the bare
inner encoding, `array` emits a varint count then the items. -/
def encodeVal (lenc : Nat → Option (List Nat)) : PyVal → List Modifier → Option (List Nat)
  | .leaf n, [] => lenc n
  | .plist items, [] => encodeItems lenc items []
  | .pynone, [] => some []
  | .pynone, .optional :: _ => some [0]
  | .leaf n, .optional :: inner =>
    (encodeVal lenc (.leaf n) inner).map (fun bs => 1 :: bs)
  | .plist items, .optional :: inner =>
    (encodeVal lenc (.plist items) inner).map (fun bs => 1 :: bs)
  | .pynone, .extension :: _ => some []
  | .leaf n, .extension :: inner => encodeVal lenc (.leaf n) inner
  | .plist items, .extension :: inner => encodeVal lenc (.plist items) inner
  | .pynone, .array :: _ => none
  | .leaf _, .array :: _ => none
  | .plist items, .array :: inner =>
    (encodeItems lenc items inner).map (fun payload => varuintEncode items.length ++ payload)
termination_by v mods => (sizeOf v, sizeOf mods)

/-- The `b''.join(self._encode_val(item, inner) for item in val)` loops of
`_encode_val`. -/
def encodeItems (lenc : Nat → Option (List Nat)) : List PyVal → List Modifier → Option (List Nat)
  | [], _ => some []
  | v :: rest, mods =>
    match encodeVal lenc v mods, encodeItems lenc rest mods with
    | some a, some b => some (a ++ b)
    | _, _ => none
termination_by items mods => (sizeOf items, sizeOf mods)

end

mutual

/-- `_decode_val(base, view, mods)` inside `Struct.from_bytes`: returns
`(value, bytes_consumed)`.  `ldec` is the leaf's `from_bytes` applied to
the whole remaining view (exactly as the source passes `view` on), and the
consumed length of a leaf is `len(val.encode())` — the source re-encodes
the decoded value to learn its length. -/
def decodeVal (ldec : List Nat → Option Nat) (lenc : Nat → Option (List Nat)) :
    List Nat → List Modifier → Option (PyVal × Nat)
  | view, [] =>
    match ldec view with
    | none => none
    | some n =>
      match lenc n with
      | none => none
      | some bs => some (.leaf n, bs.length)
  | view, .optional :: inner =>
    match view with
    | [] => none
    | flag :: rest =>
      if flag = 0 then some (.pynone, 1)
      else
        match decodeVal ldec lenc rest inner with
        | none => none
        | some (v, used) => some (v, 1 + used)
  | view, .extension :: inner =>
    match view with
    | [] => some (.pynone, 0)
    | b :: rest => decodeVal ldec lenc (b :: rest) inner
  | view, .array :: inner =>
    match varuintDecode view with
    | none => none
    | some (cnt, head) =>
      match decodeItems ldec lenc cnt (view.drop head) inner with
      | none => none
      | some (items, used) => some (.plist items, head + used)
termination_by _view mods => (2 * mods.length, 0)

/-- The `for _ in range(cnt)` loop of the `array` case of `_decode_val`. -/
def decodeItems (ldec : List Nat → Option Nat) (lenc : Nat → Option (List Nat)) :
    Nat → List Nat → List Modifier → Option (List PyVal × Nat)
  | 0, _, _ => some ([], 0)
  | cnt + 1, view, mods =>
    match decodeVal ldec lenc view mods with
    | none => none
    | some (v, used) =>
      match decodeItems ldec lenc cnt (view.drop used) mods with
      | none => none
      | some (vs, used2) => some (v :: vs, used + used2)
termination_by cnt _view mods => (2 * mods.length + 1, cnt)

end

/-- `Struct.encode`: walk the codec pipeline (field order with each field's
modifier stack, paired here with the instance's field values) and
concatenate the per-field encodings. -/
def structEncode (lenc : Nat → Option (List Nat)) :
    List (List Modifier × PyVal) → Option (List Nat)
  | [] => some []
  | (mods, v) :: rest =>
    match encodeVal lenc v mods, structEncode lenc rest with
    | some a, some b => some (a ++ b)
    | _, _ => none

/-- `Struct.from_bytes`: walk the same pipeline, consuming from an advancing
offset (`buf[off:]` is `buf.drop used` here); the decoded field values in
pipeline order. -/
def structDecode (ldec : List Nat → Option Nat) (lenc : Nat → Option (List Nat)) :
    List (List Modifier) → List Nat → Option (List PyVal)
  | [], _ => some []
  | mods :: rest, buf =>
    match decodeVal ldec lenc buf mods with
    | none => none
    | some (v, used) =>
      match structDecode ldec lenc rest (buf.drop used) with
      | none => none
      | some vs => some (v :: vs)

/-! ## The `uint32` builtin leaf codec (`meta.py`, `IntBase`) -/

/-- `int.from_bytes(raw, byteorder='little', signed=False)` applied to the
whole view, exactly as `IntBase.from_bytes` does (an empty view decodes to
`0`). -/
def intFromBytesLE (view : List Nat) : Nat :=
  view.foldr (fun b acc => b + 256 * acc) 0

/-- `UInt32.from_bytes`: total, and greedy over the entire remaining view. -/
def uint32FromBytes (view : List Nat) : Option Nat :=
  some (intFromBytesLE view)

/-- `UInt32.encode`: `value.to_bytes(length=4, byteorder='little')`, which
raises `OverflowError` (here `none`) when the value does not fit 32 bits. -/
def uint32Encode (n : Nat) : Option (List Nat) :=
  if n < 4294967296 then
    some [n % 256, n / 256 % 256, n / 65536 % 256, n / 16777216 % 256]
  else none

/-! ## Variant decode (`Variant.from_bytes` in `_struct.py`)

A generated variant class stores its arms as `cls.__value__`, the
`typing.Union` that `_struct_ns.build_struct_namespace` builds from the
declared arm list: a struct arm contributes the generated class of its
*resolved* struct (the same class for equal resolved names), and every
non-struct arm contributes a fresh single-field wrapper class named
`{variant}_{index}`.  `typing.Union` deduplicates equal members keeping the
first occurrence, and `Variant.from_bytes` recovers the arm tuple with
`get_args(cls.__value__) or (cls.__value__,)` — so the runtime arm list is
the first-occurrence deduplication of the declared arm classes.  An arm
class is identified here by a `String` and its decoder by `decMap`. -/

/-- Decode errors of `Variant.from_bytes`: the `ValueError` for a tag at or
past the end of the arm tuple, and a failure of the varint read itself. -/
inductive VariantErr where
  | varintFail : VariantErr
  | tagRange : VariantErr
deriving DecidableEq, Repr

/-- `Variant.from_bytes(raw)`: read the `VarUInt32` tag, slice the payload
at `encode_length`, check the tag against the runtime arm tuple (the
deduplicated declared arm classes, see above), and delegate the payload to
the selected arm's decoder. -/
def variantFromBytes (decMap : String → List Nat → Except VariantErr PyVal)
    (declaredArms : List String) (raw : List Nat) : Except VariantErr PyVal :=
  match varuintDecode raw with
  | none => .error .varintFail
  | some (tag, off) =>
    let arms := pyDedup declaredArms
    if h : tag < arms.length then decMap (arms.get ⟨tag, h⟩) (raw.drop off)
    else .error .tagRange

/-! ## Structural conversion of variants (`Variant.to_builtins`,
`_wrap_as_struct` in `_struct_ns.py`) -/

/-- The generic structural values of `to_builtins` (`IOTypes` in
`meta.py`): scalars, lists and string-keyed maps. -/
inductive IOVal where
  | nullv : IOVal
  | boolv : Bool → IOVal
  | intv : Int → IOVal
  | strv : String → IOVal
  | bytesv : List Nat → IOVal
  | listv : List IOVal → IOVal
  | dictv : List (String × IOVal) → IOVal
deriving Repr

/-- `True` exactly on the map constructor: `isinstance(out, dict)`. -/
def IOVal.isDict : IOVal → Bool
  | .dictv _ => true
  | _ => false

/-- Key-value update of a Python dict, replacing in place or appending. -/
def pyDictSetVal (d : List (String × IOVal)) (k : String) (v : IOVal) :
    List (String × IOVal) :=
  match d with
  | [] => [(k, v)]
  | (k0, v0) :: rest => if k0 == k then (k0, v) :: rest else (k0, v0) :: pyDictSetVal rest k v

/-- `{'antelope_type': tag, **out}`: start from the tag entry and merge
`out`'s entries in order, a later equal key overriding in place. -/
def pyDictMerge (base entries : List (String × IOVal)) : List (String × IOVal) :=
  entries.foldl (fun d kv => pyDictSetVal d kv.1 kv.2) base

/-- `Variant.to_builtins`: delegate to the selected arm's `to_builtins`
(`armOut` is that result) and, only when it is a dict, rebuild it as
`{'antelope_type': armAbiType, **out}` where `armAbiType` is
`type(self._inner).__abi_type__` — the arm *class*'s tag, i.e. the resolved
struct name for a struct arm or `{variant}_{index}` for a wrapper arm.  A
non-dict result is returned unchanged. -/
def variantToBuiltins (armAbiType : String) (armOut : IOVal) : IOVal :=
  match armOut with
  | .dictv entries => .dictv (pyDictMerge [("antelope_type", .strv armAbiType)] entries)
  | out => out

/-- The `to_builtins` that `_wrap_as_struct` installs on a synthetic
single-field carrier class: `lambda self: self.value.to_builtins()` — it
forwards the wrapped value's own structural form, not a map. -/
def wrapperToBuiltins (innerOut : IOVal) : IOVal :=
  innerOut

/-- `True` exactly when the structural value is a map holding an
`antelope_type` entry. -/
def containsTagEntry : IOVal → Bool
  | .dictv entries => entries.any (fun kv => kv.1 == "antelope_type")
  | _ => false

/-! ## Fingerprint hash (`_hash` in `_defs.py`)

`_hash` feeds `hashlib.sha256` the byte stream below and returns the
digest; two schemas get equal digests exactly when their streams are equal
(up to SHA-256 collisions, which are outside any schema author's reach), so
the stream itself is what the theorems speak about. -/

/-- The `h.update` calls for one struct: its name, then each field's name
and declared type, concatenated with no separator. -/
def structHashStr (s : StructDef) : String :=
  s.name ++ String.join (s.fields.map (fun f => f.name ++ f.type_))

/-- The `h.update` calls for one variant: its name then its arm types. -/
def variantHashStr (v : VariantDef) : String :=
  v.name ++ String.join v.types

/-- The `h.update` calls for one alias. -/
def aliasHashStr (a : AliasDef) : String :=
  a.new_type_name ++ a.type_

/-- The exact byte stream `_hash` digests: the `structs` section, then
`enums` (variants), then `aliases` — and nothing else (actions, tables and
every other part of the schema are never fed to the hasher). -/
def hashInput (d : ABIDef) : String :=
  "structs" ++ String.join (d.structs.map structHashStr)
    ++ "enums" ++ String.join (d.variants.map variantHashStr)
    ++ "aliases" ++ String.join (d.types.map aliasHashStr)

/-! ## The `__eq__` installed by `structs.py` (`gen_eq_for_cls`)

`build_struct_namespace` in `abi/structs.py` (the builder `ABIViewMeta.__new__`
imports) replaces each generated class's `__eq__` with `gen_eq_for_cls(cls)`.
That `_eq` returns `False` only when, for some field name,
`not (hasattr(self, name) or hasattr(other, name) or getattr(self, name) == getattr(other, name))`
holds.  The model abstracts an object by its `hasattr` predicate on field
names, and the pairwise value comparison by `eqVals`. -/

/-- `gen_eq_for_cls(cls)`'s `_eq(self, other)` over the class's
`__struct_fields__`. -/
def genEq (fieldNames : List String) (hasattrSelf hasattrOther : String → Bool)
    (eqVals : String → Bool) : Bool :=
  fieldNames.all (fun n => hasattrSelf n || hasattrOther n || eqVals n)

/-! ## Concrete schemas used by the theorems -/

/-- A schema declaring a struct named `uint32`, a builtin name. -/
def builtinClashDefn : ABIDef :=
  { types := [], structs := [{ name := "uint32", fields := [] }], variants := [] }

/-- The alias chain `A -> B -> A` of the spec's example scenario 3. -/
def abCycleDefn : ABIDef :=
  { types := [⟨"A", "B"⟩, ⟨"B", "A"⟩], structs := [], variants := [] }

/-- The two colliding schemas: they differ in the struct's declared name
(`"ab"` against `"a"`) and in its field name, yet the hasher's input stream
is `"structsabcdenumsaliases"` for both, because names, field names and
types are concatenated with no separator. -/
def hashCollideLeft : ABIDef :=
  { types := [], structs := [{ name := "ab", fields := [⟨"c", "d"⟩] }], variants := [] }

/-- See `hashCollideLeft`. -/
def hashCollideRight : ABIDef :=
  { types := [], structs := [{ name := "a", fields := [⟨"bc", "d"⟩] }], variants := [] }

/-- Witness for `c4_hash_function_of_declarations`: two concrete schemas
that differ in their action list but agree on all hashed declarations. -/
def hashWitnessLeft : ABIDef :=
  { types := [⟨"acc", "name"⟩],
    structs := [{ name := "transfer", fields := [⟨"from", "name"⟩] }],
    variants := [⟨"v", ["uint8", "string"]⟩],
    actions := [⟨"transfer", "transfer", "legal text"⟩] }

/-- See `hashWitnessLeft`: same declarations, no actions. -/
def hashWitnessRight : ABIDef :=
  { types := [⟨"acc", "name"⟩],
    structs := [{ name := "transfer", fields := [⟨"from", "name"⟩] }],
    variants := [⟨"v", ["uint8", "string"]⟩],
    actions := [] }

/-- Arm decoders for the C2 counterexample: every arm decodes any payload
(never with a range error). -/
def constArmDecoders : String → List Nat → Except VariantErr PyVal :=
  fun _ payload => .ok (.leaf payload.length)

/-- The claim's offending pattern: somewhere in the field list, a field
whose type name is `$`-suffixed is followed (not necessarily adjacently) by
one that is not. -/
def ExtViolation (fs : List FieldDef) : Prop :=
  ∃ p a q b r, fs = p ++ a :: (q ++ b :: r)
    ∧ endsDollar a.type_ = true ∧ endsDollar b.type_ = false

/-- The struct of the counterexample: an undefined type on the first field,
then a `$`-suffixed field followed by a plain one. -/
def c5BadStruct : StructDef :=
  { name := "s1", fields := [⟨"a", "unknown"⟩, ⟨"b", "string$"⟩, ⟨"c", "uint32"⟩] }

/-- The spec's positive example: `[a: uint32, b: string$]`. -/
def c5GoodStruct : StructDef :=
  { name := "foo", fields := [⟨"a", "uint32"⟩, ⟨"b", "string$"⟩] }

/-- The spec's negative example: `[a: string$, b: uint32]`. -/
def c5RejStruct : StructDef :=
  { name := "bar", fields := [⟨"a", "string$"⟩, ⟨"b", "uint32"⟩] }

/-- `Base{f: string$}` of the spec's scenario 4. -/
def baseS : StructDef := { name := "base_s", fields := [⟨"f", "string$"⟩] }

/-- `Derived`, declaring no extension fields, with `base_s` as base. -/
def derivedS : StructDef := { name := "derived", fields := [], base := some "base_s" }

/-- Spec example scenario 4: `Base{f: string$}` used as `base` of a
`Derived` struct that declares no extension fields. -/
def baseHygieneDefn : ABIDef :=
  { types := [], structs := [baseS, derivedS], variants := [] }

/-! ## C1 — struct round-trip -/

/-- C1.  The claim states that for every instance `v` of a generated struct
type `T` with valid field values, `T.from_bytes(v.encode()) == v`.  The code
falsifies it: the struct with codec pipeline `[x: uint32, y: uint32]` (no
modifiers) and the instance `{x: 1, y: 1}` encodes to the eight bytes
`01 00 00 00 01 00 00 00`, but `from_bytes` hands the *entire* remaining
view to the leaf's `from_bytes` (`UInt32.from_bytes` reads all eight bytes
little-endian, giving `4294967297`) and measures the consumed length as
`len(val.encode())`, which raises `OverflowError` because `4294967297` does
not fit four bytes — so decoding fails (`none`) instead of returning `v`. -/
theorem c1_uint32_pair_roundtrip_fails :
    structEncode uint32Encode [([], PyVal.leaf 1), ([], PyVal.leaf 1)]
      = some [1, 0, 0, 0, 1, 0, 0, 0]
  ∧ structDecode uint32FromBytes uint32Encode [[], []] [1, 0, 0, 0, 1, 0, 0, 0]
      = none
  ∧ intFromBytesLE [1, 0, 0, 0, 1, 0, 0, 0] = 4294967297
  ∧ uint32Encode 4294967297 = none := by
  refine ⟨?_, ?_, by norm_num [intFromBytesLE], by norm_num [uint32Encode]⟩
  · simp [structEncode, encodeVal, uint32Encode]
  · simp [structDecode, decodeVal, uint32FromBytes, intFromBytesLE, uint32Encode]

/-! ## C10 — the generated `__eq__` never returns `False` -/

/-- C10.  An instance of a generated struct class always possesses every
declared field attribute (msgspec sets them all at construction), so
`hasattr(self, name)` is `True` and the disjunction inside `gen_eq_for_cls`'s
`_eq` short-circuits before any value comparison: the installed `__eq__`
returns `True` for every pair of instances, whatever `eqVals` (the pairwise
field-value comparison) and `hasattrOther` are. -/
theorem c10_generated_eq_always_true (fieldNames : List String)
    (hasattrOther eqVals : String → Bool) :
    genEq fieldNames (fun _ => true) hasattrOther eqVals = true := by
  simp [genEq]

/-! ## C4 — fingerprint hash -/



/-- C4, counterexample.  Two schemas that differ in a struct name (and in a
field name) feed `sha256` the identical byte stream, hence get the identical
digest — refuting "for every two schemas that differ in any name, field, or
declared type string, the digests differ". -/
theorem c4_hash_collision :
    hashInput hashCollideLeft = hashInput hashCollideRight
  ∧ hashCollideLeft.structs.map StructDef.name ≠ hashCollideRight.structs.map StructDef.name := by
  constructor
  · rfl
  · decide

/-- C4, amended.  The digest is a function of exactly the declared struct
names and field `(name, type)` strings, variant names and arm strings, and
alias `(new_type_name, target)` strings, visited in that fixed order: two
schemas agreeing on those declarations hash identically whatever their
actions, tables or anything else — which also gives determinism on one
schema.  (The counterexample above shows the converse direction of the
original claim fails: distinct declarations can still collide, since the
strings are concatenated without separators.) -/
theorem c4_hash_function_of_declarations (d1 d2 : ABIDef)
    (hs : d1.structs = d2.structs) (hv : d1.variants = d2.variants)
    (ha : d1.types = d2.types) :
    hashInput d1 = hashInput d2 := by
  simp [hashInput, hs, hv, ha]





/-- The amended C4 at a concrete input: the hypotheses hold by computation
and the two schemas differ (in their actions) while hashing identically. -/
theorem c4_hash_function_of_declarations_witness :
    hashWitnessLeft ≠ hashWitnessRight
  ∧ hashInput hashWitnessLeft = hashInput hashWitnessRight :=
  ⟨by decide, c4_hash_function_of_declarations hashWitnessLeft hashWitnessRight rfl rfl rfl⟩

/-! ## C9 — variant structural conversion -/

/-- C9, counterexample.  Spec example variant `V{types:[uint8, string]}`
holding the string `"ab"`: the selected arm is the synthetic carrier class
`v_1` (whose `__abi_type__` is `"v_1"`, not the declared arm type
`"string"`), its `to_builtins` forwards the bare inner structural value
`"ab"`, and since that is not a dict `Variant.to_builtins` injects no tag
entry at all — the structural result is the bare string, not a
self-describing map. -/
theorem c9_wrapped_arm_untagged :
    variantToBuiltins "v_1" (wrapperToBuiltins (IOVal.strv "ab")) = IOVal.strv "ab"
  ∧ containsTagEntry (variantToBuiltins "v_1" (wrapperToBuiltins (IOVal.strv "ab"))) = false
  ∧ (variantToBuiltins "v_1" (wrapperToBuiltins (IOVal.strv "ab"))).isDict = false :=
  ⟨rfl, rfl, rfl⟩

/-- `pyDictSetVal` appends when the key is absent. -/
theorem pyDictSetVal_append_of_not_mem (d : List (String × IOVal)) (k : String) (v : IOVal)
    (h : ∀ kv ∈ d, kv.1 ≠ k) : pyDictSetVal d k v = d ++ [(k, v)] := by
  induction d with
  | nil => rfl
  | cons kv rest ih =>
    have hk : kv.1 ≠ k := h kv (by simp)
    simp only [pyDictSetVal]
    rw [if_neg (by simpa using hk)]
    simp [ih (fun p hp => h p (by simp [hp]))]

/-- `pyDictMerge base entries` is plain concatenation when the entry keys
are fresh for `base` and mutually distinct. -/
theorem pyDictMerge_append (base entries : List (String × IOVal))
    (hfresh : ∀ kv ∈ entries, ∀ b ∈ base, b.1 ≠ kv.1)
    (hnodup : (entries.map Prod.fst).Nodup) :
    pyDictMerge base entries = base ++ entries := by
  induction entries generalizing base with
  | nil => simp [pyDictMerge]
  | cons kv rest ih =>
    have hset : pyDictSetVal base kv.1 kv.2 = base ++ [kv] := by
      rw [pyDictSetVal_append_of_not_mem base kv.1 kv.2
        (fun b hb => hfresh kv (by simp) b hb)]
    have hnodup' : (rest.map Prod.fst).Nodup := by
      simpa [List.nodup_cons] using hnodup.of_cons
    have hkv : kv.1 ∉ rest.map Prod.fst := by
      simpa [List.nodup_cons] using (List.nodup_cons.mp hnodup).1
    have hfresh' : ∀ p ∈ rest, ∀ b ∈ base ++ [kv], b.1 ≠ p.1 := by
      intro p hp b hb
      rcases List.mem_append.mp hb with hb | hb
      · exact hfresh p (by simp [hp]) b hb
      · have : b = kv := by simpa using hb
        subst this
        intro hbp
        exact hkv (hbp ▸ List.mem_map_of_mem Prod.fst hp)
    have := ih (base ++ [kv]) hfresh' hnodup'
    simp only [pyDictMerge] at this ⊢
    simp [hset, this]

/-- C9, amended.  `Variant.to_builtins` delegates to the selected arm's
structural conversion and injects the tag entry only when that conversion
yields a map: then the result is `{'antelope_type': t, **out}` where `t` is
the arm *class*'s `__abi_type__` (the resolved struct name of a struct arm,
or `{variant}_{index}` for the synthetic carrier of a non-struct arm), the
tag entry coming first when the map does not itself use the key.  When the
arm's conversion yields a non-map — as for every synthetic carrier, whose
`to_builtins` forwards the bare wrapped value — the result is returned
unchanged, with no tag injected. -/
theorem c9_tag_injection_behaviour (tag : String) (armOut : IOVal) :
    (∀ es, armOut = IOVal.dictv es →
      variantToBuiltins tag armOut
        = IOVal.dictv (pyDictMerge [("antelope_type", IOVal.strv tag)] es))
  ∧ (armOut.isDict = false → variantToBuiltins tag armOut = armOut)
  ∧ (∀ es, armOut = IOVal.dictv es → (∀ kv ∈ es, kv.1 ≠ "antelope_type") →
      (es.map Prod.fst).Nodup →
      variantToBuiltins tag armOut
        = IOVal.dictv (("antelope_type", IOVal.strv tag) :: es)) := by
  refine ⟨?_, ?_, ?_⟩
  · intro es h
    subst h
    rfl
  · intro h
    cases armOut <;> simp_all [variantToBuiltins, IOVal.isDict]
  · intro es h hfresh hnodup
    subst h
    have := pyDictMerge_append [("antelope_type", IOVal.strv tag)] es
      (by intro kv hkv b hb; simp at hb; simp [hb]; exact (hfresh kv hkv).symm) hnodup
    simp [variantToBuiltins, this]

/-! ## C3 — extension fields carry no marker -/

/-- C3.  For a field whose outermost modifier is `Extension`:
`_encode_val` emits nothing for an absent (`None`) value and exactly the
inner encoding — no marker byte — for a present one, and `_decode_val`
(which receives the buffer suffix at the field's pipeline position) decodes
the field as present exactly when at least one byte remains, consuming
nothing and yielding `None` on an empty view.  Stated for every leaf codec
`lenc`/`ldec`, value, inner modifier stack and non-empty view. -/
theorem c3_extension_modifier_codec (lenc : Nat → Option (List Nat))
    (ldec : List Nat → Option Nat) (v : PyVal) (inner : List Modifier)
    (view : List Nat) (hv : v ≠ PyVal.pynone) (hw : view ≠ []) :
    encodeVal lenc PyVal.pynone (Modifier.extension :: inner) = some []
  ∧ encodeVal lenc v (Modifier.extension :: inner) = encodeVal lenc v inner
  ∧ decodeVal ldec lenc [] (Modifier.extension :: inner) = some (PyVal.pynone, 0)
  ∧ decodeVal ldec lenc view (Modifier.extension :: inner) = decodeVal ldec lenc view inner := by
  refine ⟨by simp [encodeVal], ?_, by simp [decodeVal], ?_⟩
  · cases v with
    | pynone => exact absurd rfl hv
    | leaf n => simp [encodeVal]
    | plist items => simp [encodeVal]
  · cases view with
    | nil => exact absurd rfl hw
    | cons b rest => simp [decodeVal]

/-- The C3 theorem at a concrete input: the `uint32` leaf codec, a present
leaf value `5`, an empty inner stack and the four-byte view `05 00 00 00`. -/
theorem c3_extension_modifier_codec_witness :
    encodeVal uint32Encode PyVal.pynone [Modifier.extension] = some []
  ∧ encodeVal uint32Encode (PyVal.leaf 5) [Modifier.extension]
      = encodeVal uint32Encode (PyVal.leaf 5) []
  ∧ decodeVal uint32FromBytes uint32Encode [] [Modifier.extension]
      = some (PyVal.pynone, 0)
  ∧ decodeVal uint32FromBytes uint32Encode [5, 0, 0, 0] [Modifier.extension]
      = decodeVal uint32FromBytes uint32Encode [5, 0, 0, 0] [] :=
  c3_extension_modifier_codec uint32Encode uint32FromBytes (PyVal.leaf 5) []
    [5, 0, 0, 0] (by intro h; cases h) (by intro h; cases h)

/-! ## C2 — variant tag dispatch -/



/-- C2, counterexample.  A variant may declare the same struct arm twice —
`types = ["foo", "foo"]` passes validation — but both declared positions
resolve to the *same* generated class, and `typing.Union` collapses equal
members, so `Variant.from_bytes` sees one runtime arm.  Decoding the buffer
`[0x01]` (tag 1) then fails with the range `ValueError` although the tag, 1,
is strictly below the number of declared arms, 2 — refuting "fails with a
range error if and only if the tag is greater than or equal to the number
of declared arms". -/
theorem c2_duplicate_arm_tag_range :
    variantFromBytes constArmDecoders ["foo", "foo"] [1] = .error VariantErr.tagRange
  ∧ 1 < (["foo", "foo"] : List String).length :=
  ⟨rfl, by decide⟩

/-- First-occurrence deduplication leaves a duplicate-free list unchanged. -/
theorem pyDedupGo_eq_self (l seen : List α) [DecidableEq α] (hnd : l.Nodup)
    (hdisj : ∀ a ∈ l, a ∉ seen) : pyDedupGo seen l = l := by
  induction l generalizing seen with
  | nil => rfl
  | cons x rest ih =>
    have hx : x ∉ seen := hdisj x (by simp)
    simp only [pyDedupGo, if_neg hx]
    rw [ih (x :: seen) hnd.of_cons]
    intro a ha
    simp only [List.mem_cons]
    push_neg
    exact ⟨fun h => (List.nodup_cons.mp hnd).1 (h ▸ ha), hdisj a (by simp [ha])⟩

/-- C2, amended.  Whenever the varint tag parse succeeds with value `tag`
and consumed length `off`, `Variant.from_bytes` fails with the range error
if and only if `tag` is at or past the end of the *runtime* arm tuple — the
declared arm classes after `typing.Union`'s first-occurrence deduplication —
and otherwise delegates the remaining bytes to the arm at position `tag` of
that tuple.  When the declared arm classes are pairwise distinct the runtime
tuple *is* the declared list, recovering the original claim; and tag `0`
always selects the first declared arm, deduplication keeping first
occurrences.  (`hnotag` excludes arm decoders that themselves produce a
range error, as a nested variant could.) -/
theorem c2_variant_tag_dispatch (decMap : String → List Nat → Except VariantErr PyVal)
    (declared : List String) (raw : List Nat) (tag off : Nat)
    (hparse : varuintDecode raw = some (tag, off))
    (hnotag : ∀ c b, decMap c b ≠ .error VariantErr.tagRange) :
    (variantFromBytes decMap declared raw = .error VariantErr.tagRange
      ↔ (pyDedup declared).length ≤ tag)
  ∧ (∀ h : tag < (pyDedup declared).length,
      variantFromBytes decMap declared raw
        = decMap ((pyDedup declared).get ⟨tag, h⟩) (raw.drop off))
  ∧ (declared.Nodup → pyDedup declared = declared)
  ∧ (∀ c0 rest, tag = 0 → declared = c0 :: rest →
      variantFromBytes decMap declared raw = decMap c0 (raw.drop off)) := by
  have hunfold : variantFromBytes decMap declared raw
      = if h : tag < (pyDedup declared).length then
          decMap ((pyDedup declared).get ⟨tag, h⟩) (raw.drop off)
        else .error .tagRange := by
    simp [variantFromBytes, hparse]
  refine ⟨?_, ?_, ?_, ?_⟩
  · constructor
    · intro hres
      by_contra hlen
      push_neg at hlen
      rw [hunfold, dif_pos hlen] at hres
      exact hnotag _ _ hres
    · intro hlen
      rw [hunfold, dif_neg (by omega)]
  · intro h
    rw [hunfold, dif_pos h]
  · intro hnd
    exact pyDedupGo_eq_self declared [] hnd (by simp)
  · intro c0 rest htag hdecl
    subst htag
    subst hdecl
    have hlen : 0 < (pyDedup (c0 :: rest)).length := by
      simp [pyDedup, pyDedupGo]
    rw [hunfold, dif_pos hlen]
    congr 1

/-- The amended C2 at a concrete input: two distinct arms, buffer `[0, 9]`
(tag `0`, one byte consumed): the range-error test, the delegation to the
first declared arm and the deduplication identity all instantiated. -/
theorem c2_variant_tag_dispatch_witness :
    (variantFromBytes constArmDecoders ["u8", "str"] [0, 9] = .error VariantErr.tagRange
      ↔ (pyDedup ["u8", "str"]).length ≤ 0)
  ∧ (∀ h : 0 < (pyDedup ["u8", "str"]).length,
      variantFromBytes constArmDecoders ["u8", "str"] [0, 9]
        = constArmDecoders ((pyDedup ["u8", "str"]).get ⟨0, h⟩) ([0, 9].drop 1))
  ∧ ((["u8", "str"] : List String).Nodup → pyDedup ["u8", "str"] = ["u8", "str"])
  ∧ (∀ c0 rest, 0 = 0 → ["u8", "str"] = c0 :: rest →
      variantFromBytes constArmDecoders ["u8", "str"] [0, 9]
        = constArmDecoders c0 ([0, 9].drop 1)) :=
  c2_variant_tag_dispatch constArmDecoders ["u8", "str"] [0, 9] 0 1 (by decide)
    (fun c b => by simp [constArmDecoders])

/-! ## C5 — extension-field ordering -/



/-- No violation in an empty field list. -/
theorem extViolation_nil : ¬ ExtViolation [] := by
  rintro ⟨p, a, q, b, r, heq, -, -⟩
  rcases p with _ | ⟨x, p⟩ <;> simp at heq

/-- Prepending a `$`-suffixed field: a violation is exactly a later
non-`$` field. -/
theorem extViolation_cons_ext (f : FieldDef) (fs : List FieldDef)
    (hf : endsDollar f.type_ = true) :
    ExtViolation (f :: fs) ↔ ∃ g ∈ fs, endsDollar g.type_ = false := by
  constructor
  · rintro ⟨p, a, q, b, r, heq, ha, hb⟩
    cases p with
    | nil =>
      rw [List.nil_append, List.cons.injEq] at heq
      exact ⟨b, by simp [heq.2], hb⟩
    | cons x p =>
      rw [List.cons_append, List.cons.injEq] at heq
      refine ⟨b, ?_, hb⟩
      rw [heq.2]
      simp
  · rintro ⟨g, hg, hgf⟩
    obtain ⟨s, t, rfl⟩ := List.append_of_mem hg
    exact ⟨[], f, s, g, t, by simp, hf, hgf⟩

/-- Prepending a non-`$` field neither creates nor destroys a violation. -/
theorem extViolation_cons_nonext (f : FieldDef) (fs : List FieldDef)
    (hf : endsDollar f.type_ = false) :
    ExtViolation (f :: fs) ↔ ExtViolation fs := by
  constructor
  · rintro ⟨p, a, q, b, r, heq, ha, hb⟩
    cases p with
    | nil =>
      rw [List.nil_append, List.cons.injEq] at heq
      rw [heq.1] at hf
      rw [hf] at ha
      cases ha
    | cons x p =>
      rw [List.cons_append, List.cons.injEq] at heq
      exact ⟨p, a, q, b, r, heq.2, ha, hb⟩
  · rintro ⟨p, a, q, b, r, rfl, ha, hb⟩
    exact ⟨f :: p, a, q, b, r, rfl, ha, hb⟩

/-- With the `seen_ext` flag already set and all field types defined, the
field loop succeeds exactly when every remaining field is `$`-suffixed. -/
theorem checkFields_true_ok_iff (sname : String) (defined : List String)
    (fs : List FieldDef) (hdef : ∀ f ∈ fs, bare f.type_ ∈ defined) :
    (checkFields sname defined true fs = .ok ()
      ↔ ∀ f ∈ fs, endsDollar f.type_ = true) := by
  induction fs with
  | nil => simp [checkFields]
  | cons f rest ih =>
    have hd : bare f.type_ ∈ defined := hdef f (by simp)
    by_cases hf : endsDollar f.type_ = true
    · rw [checkFields, if_pos hf, if_pos hd,
        ih (fun g hg => hdef g (by simp [hg]))]
      simp [hf]
    · rw [checkFields, if_neg hf]
      simp only [if_true]
      constructor
      · intro h
        cases h
      · intro h
        exact absurd (h f (by simp)) hf

/-- With the flag clear and all field types defined, the field loop
succeeds exactly when the struct has no extension-ordering violation. -/
theorem checkFields_false_ok_iff (sname : String) (defined : List String)
    (fs : List FieldDef) (hdef : ∀ f ∈ fs, bare f.type_ ∈ defined) :
    (checkFields sname defined false fs = .ok () ↔ ¬ ExtViolation fs) := by
  induction fs with
  | nil => simp [checkFields, extViolation_nil]
  | cons f rest ih =>
    have hd : bare f.type_ ∈ defined := hdef f (by simp)
    by_cases hf : endsDollar f.type_ = true
    · rw [checkFields, if_pos hf, if_pos hd,
        checkFields_true_ok_iff sname defined rest (fun g hg => hdef g (by simp [hg])),
        extViolation_cons_ext f rest hf]
      push_neg
      constructor
      · intro h g hg
        simp [h g hg]
      · intro h g hg
        have := h g hg
        simpa using this
    · have hf0 : endsDollar f.type_ = false := by
        simpa using hf
      rw [checkFields, if_neg hf]
      simp only [Bool.false_eq_true, if_false, if_pos hd]
      rw [ih (fun g hg => hdef g (by simp [hg])), extViolation_cons_nonext f rest hf0]

/-- With all field types defined, any error the field loop raises is an
`ExtensionOrderError` for this struct. -/
theorem checkFields_error_shape (sname : String) (defined : List String)
    (fs : List FieldDef) (hdef : ∀ f ∈ fs, bare f.type_ ∈ defined) :
    ∀ seenExt e, checkFields sname defined seenExt fs = .error e →
      ∃ fn, e = VErr.extensionOrder sname fn := by
  induction fs with
  | nil =>
    intro seenExt e h
    cases h
  | cons f rest ih =>
    intro seenExt e h
    have hd : bare f.type_ ∈ defined := hdef f (by simp)
    by_cases hf : endsDollar f.type_ = true
    · rw [checkFields, if_pos hf, if_pos hd] at h
      exact ih (fun g hg => hdef g (by simp [hg])) true e h
    · rw [checkFields, if_neg hf] at h
      cases seenExt with
      | true =>
        simp only [if_true] at h
        cases h
        exact ⟨f.name, rfl⟩
      | false =>
        simp only [Bool.false_eq_true, if_false, if_pos hd] at h
        exact ih (fun g hg => hdef g (by simp [hg])) false e h

/-- C5, amended.  Provided every field's bare type is a defined name and the
base (when declared and non-empty) is defined, `_check_structs`'s per-struct
body rejects the struct if and only if some locally declared non-`$` field
appears after a `$`-suffixed field, and every error it then raises is the
extension-ordering error for this struct.  (Without the provisos the first
offending field in declaration order decides which error is raised, so an
undefined-type error on an earlier field can preempt the extension-ordering
error — the counterexample below.) -/
theorem c5_extension_ordering (defined : List String) (s : StructDef)
    (hbase : ∀ b, s.base = some b → b = "" ∨ b ∈ defined)
    (hdef : ∀ f ∈ s.fields, bare f.type_ ∈ defined) :
    (checkStruct defined s = .ok () ↔ ¬ ExtViolation s.fields)
  ∧ (∀ e, checkStruct defined s = .error e → ∃ fn, e = VErr.extensionOrder s.name fn) := by
  have hcond : ∀ b, s.base = some b → ¬(b ≠ "" ∧ b ∉ defined) := by
    intro b hb
    rcases hbase b hb with h | h
    · rintro ⟨h1, -⟩
      exact h1 h
    · rintro ⟨-, h2⟩
      exact h2 h
  have hred : checkStruct defined s = checkFields s.name defined false s.fields := by
    cases hb : s.base with
    | none => simp [checkStruct, hb]
    | some b => simp [checkStruct, hb, hcond b hb]
  rw [hred]
  exact ⟨checkFields_false_ok_iff s.name defined s.fields hdef,
    fun e => checkFields_error_shape s.name defined s.fields hdef false e⟩



/-- C5, counterexample.  This struct's field list contains a non-extension
field after an extension field, yet validation rejects it with an
*undefined-type* error (for the earlier field `a`), not an
extension-ordering error — refuting the claimed "if and only if ... raising
an extension-ordering error". -/
theorem c5_undefined_preempts_extension_order :
    checkStruct builtin_types c5BadStruct
      = .error (VErr.undefinedType "field s1.a" "unknown")
  ∧ ExtViolation c5BadStruct.fields :=
  ⟨rfl, ⟨[⟨"a", "unknown"⟩], ⟨"b", "string$"⟩, [], ⟨"c", "uint32"⟩, [], rfl, rfl, rfl⟩⟩



/-- The amended C5 at a concrete input — the spec's own passing example —
together with both concrete examples evaluated: `[a: uint32, b: string$]`
passes, `[a: string$, b: uint32]` is rejected with the extension-ordering
error. -/
theorem c5_extension_ordering_witness :
    ((checkStruct builtin_types c5GoodStruct = .ok () ↔ ¬ ExtViolation c5GoodStruct.fields)
      ∧ (∀ e, checkStruct builtin_types c5GoodStruct = .error e →
          ∃ fn, e = VErr.extensionOrder c5GoodStruct.name fn))
  ∧ checkStruct builtin_types c5GoodStruct = .ok ()
  ∧ checkStruct builtin_types c5RejStruct = .error (VErr.extensionOrder "bar" "b") :=
  ⟨c5_extension_ordering builtin_types c5GoodStruct
    (fun b hb => by simp [c5GoodStruct] at hb) (by decide), rfl, rfl⟩

/-! ## C6 — duplicate-name detection -/

/-- The `seen`-dict loop of `_check_duplicates` succeeds exactly when the
walked names are pairwise distinct and fresh for `seen`. -/
theorem checkDupGo_ok_iff (items : List (String × String)) :
    ∀ seen, checkDupGo seen items = .ok ()
      ↔ (items.map Prod.snd).Nodup ∧ ∀ p ∈ items, ∀ q ∈ seen, p.2 ≠ q.1 := by
  induction items with
  | nil =>
    intro seen
    simp [checkDupGo]
  | cons it rest ih =>
    intro seen
    obtain ⟨kind, name⟩ := it
    cases hf : seen.find? (fun q => q.1 == name) with
    | some q =>
      have hq : q.1 = name := by simpa using List.find?_some hf
      have hqm : q ∈ seen := List.mem_of_find?_eq_some hf
      rw [checkDupGo, hf]
      constructor
      · intro h
        cases h
      · rintro ⟨-, hdisj⟩
        exact absurd hq.symm (hdisj (kind, name) (by simp) q hqm)
    | none =>
      have hnone : ∀ q ∈ seen, q.1 ≠ name := by
        intro q hq
        simpa using List.find?_eq_none.mp hf q hq
      rw [checkDupGo, hf, ih ((name, kind) :: seen)]
      simp only [List.map_cons, List.nodup_cons, List.mem_map, List.mem_cons]
      constructor
      · rintro ⟨hnd, hdisj⟩
        refine ⟨⟨?_, hnd⟩, ?_⟩
        · rintro ⟨p, hp, hpn⟩
          exact hdisj p hp (name, kind) (Or.inl rfl) hpn
        · rintro p (rfl | hp) q hq
          · exact fun h => hnone q hq h.symm
          · exact hdisj p hp q (Or.inr hq)
      · rintro ⟨⟨hnm, hnd⟩, hdisj⟩
        refine ⟨hnd, ?_⟩
        rintro p hp q (rfl | hq)
        · exact fun hpn => hnm ⟨p, hp, hpn⟩
        · exact hdisj p (Or.inr hp) q hq

/-- Every error the duplicate check raises is a duplicate-name error. -/
theorem checkDupGo_error_dup (items : List (String × String)) :
    ∀ seen e, checkDupGo seen items = .error e → ∃ k n, e = VErr.duplicateName k n := by
  induction items with
  | nil =>
    intro seen e h
    cases h
  | cons it rest ih =>
    intro seen e h
    obtain ⟨kind, name⟩ := it
    cases hf : seen.find? (fun q => q.1 == name) with
    | some q =>
      rw [checkDupGo, hf] at h
      cases h
      exact ⟨q.2, name, rfl⟩
    | none =>
      rw [checkDupGo, hf] at h
      exact ih ((name, kind) :: seen) e h

/-- C6, amended.  `_check_duplicates` raises a duplicate-name error if and
only if some name is declared more than once among the aliases, structs and
variants, in the kind order it walks them; it never compares a declared
name against the builtin type names, so a declaration that shadows a
builtin (the counterexample below) passes the whole validation. -/
theorem c6_duplicate_name_detection (d : ABIDef) :
    (checkDuplicates d = .ok () ↔ ((declaredNames d).map Prod.snd).Nodup)
  ∧ (∀ e, checkDuplicates d = .error e → ∃ k n, e = VErr.duplicateName k n) := by
  constructor
  · rw [checkDuplicates, checkDupGo_ok_iff]
    simp
  · intro e h
    exact checkDupGo_error_dup (declaredNames d) [] e h

/-- C6, counterexample.  A schema declaring a struct named `uint32` — a
builtin type name — passes `validate_definition` without any error,
refuting "validation rejects any schema in which an alias, struct, or
variant declares a name ... equal to a builtin type name". -/
theorem c6_builtin_shadowing_accepted :
    validateDefinition builtinClashDefn = .ok ()
  ∧ "uint32" ∈ builtin_types :=
  ⟨rfl, by decide⟩

/-! ## C8 — base-struct extension hygiene -/

/-- Membership survives first-occurrence deduplication. -/
theorem mem_pyDedupGo [DecidableEq α] (l : List α) :
    ∀ (seen : List α) (a : α), a ∈ pyDedupGo seen l ↔ a ∈ l ∧ a ∉ seen := by
  induction l with
  | nil =>
    intro seen a
    simp [pyDedupGo]
  | cons x rest ih =>
    intro seen a
    by_cases hx : x ∈ seen
    · rw [pyDedupGo, if_pos hx, ih]
      constructor
      · rintro ⟨h1, h2⟩
        exact ⟨List.mem_cons_of_mem x h1, h2⟩
      · rintro ⟨h1, h2⟩
        rcases List.mem_cons.mp h1 with rfl | h1
        · exact absurd hx h2
        · exact ⟨h1, h2⟩
    · rw [pyDedupGo, if_neg hx]
      constructor
      · intro h
        rcases List.mem_cons.mp h with rfl | h
        · exact ⟨List.mem_cons_self a rest, hx⟩
        · obtain ⟨h1, h2⟩ := (ih (x :: seen) a).mp h
          exact ⟨List.mem_cons_of_mem x h1,
            fun hc => h2 (List.mem_cons_of_mem x hc)⟩
      · rintro ⟨h1, h2⟩
        rcases List.mem_cons.mp h1 with rfl | h1
        · exact List.mem_cons_self a _
        · by_cases hax : a = x
          · subst hax
            exact List.mem_cons_self a _
          · refine List.mem_cons_of_mem x ((ih (x :: seen) a).mpr ⟨h1, ?_⟩)
            intro hc
            rcases List.mem_cons.mp hc with h | h
            · exact hax h
            · exact h2 h

/-- See `mem_pyDedupGo`. -/
theorem mem_pyDedup [DecidableEq α] (l : List α) (a : α) :
    a ∈ pyDedup l ↔ a ∈ l := by
  simp [pyDedup, mem_pyDedupGo]

/-- If some name on the base list resolves to a struct with a `$`-suffixed
field, and every base name resolves, the loop of
`_check_base_struct_extensions` ends in a base-extension error. -/
theorem checkBaseGo_error_of_mem (structs : List StructDef) (bs : List String) :
    (∀ b ∈ bs, (byName structs b).isSome) →
    ∀ b0 S f, b0 ∈ bs → byName structs b0 = some S → f ∈ S.fields →
      endsDollar f.type_ = true →
      ∃ b fn, checkBaseGo structs bs = .error (VErr.baseExtensionField b fn) := by
  induction bs with
  | nil =>
    intro _ b0 S f hb0
    cases hb0
  | cons b rest ih =>
    intro hall b0 S f hb0 hS hf hext
    obtain ⟨s, hs⟩ := Option.isSome_iff_exists.mp (hall b (by simp))
    cases hfind : s.fields.find? (fun g => endsDollar g.type_) with
    | some g =>
      refine ⟨b, g.name, ?_⟩
      simp only [checkBaseGo, hs, hfind]
    | none =>
      rcases List.mem_cons.mp hb0 with rfl | hb0r
      · rw [hS] at hs
        injection hs with hs
        subst hs
        have := List.find?_eq_none.mp hfind f hf
        simp [hext] at this
      · obtain ⟨bb, fn, hres⟩ :=
          ih (fun x hx => hall x (by simp [hx])) b0 S f hb0r hS hf hext
        refine ⟨bb, fn, ?_⟩
        simp only [checkBaseGo, hs, hfind, hres]





/-- C8.  Whenever a struct `D` of the schema declares `S`'s name as its base
(so `S`'s name is on the base list), `S` is what the name lookup resolves,
every name used as a base resolves to a declared struct (otherwise the
Python loop dies with `KeyError` before reaching the offender), and some
declared field of `S` is `$`-suffixed, `_check_base_struct_extensions`
raises a base-extension error — whatever the fields of `D` or of any other
struct look like, which is the claim's "regardless of whether the derived
struct itself is otherwise valid".  The second conjunct runs the spec's
scenario 4 through the whole of `validate_definition`. -/
theorem c8_base_extension_rejected (d : ABIDef) (S D : StructDef) (f : FieldDef)
    (hD : D ∈ d.structs) (hbase : D.base = some S.name) (hne : S.name ≠ "")
    (hS : byName d.structs S.name = some S)
    (hall : ∀ b ∈ baseNamesOf d.structs, (byName d.structs b).isSome)
    (hf : f ∈ S.fields) (hext : endsDollar f.type_ = true) :
    (∃ b fn, checkBaseStructExtensions d = .error (VErr.baseExtensionField b fn))
  ∧ validateDefinition baseHygieneDefn
      = .error (VErr.baseExtensionField "base_s" "f") := by
  constructor
  · have hmem : S.name ∈ baseNamesOf d.structs := by
      rw [baseNamesOf, mem_pyDedup, List.mem_filter]
      refine ⟨List.mem_filterMap.mpr ⟨D, hD, hbase⟩, by simpa using hne⟩
    exact checkBaseGo_error_of_mem d.structs (baseNamesOf d.structs) hall
      S.name S f hmem hS hf hext
  · rfl

/-- The C8 theorem at its own concrete schema, scenario 4 of the spec. -/
theorem c8_base_extension_rejected_witness :
    (∃ b fn, checkBaseStructExtensions baseHygieneDefn
      = .error (VErr.baseExtensionField b fn))
  ∧ validateDefinition baseHygieneDefn
      = .error (VErr.baseExtensionField "base_s" "f") :=
  c8_base_extension_rejected baseHygieneDefn
    baseS derivedS ⟨"f", "string$"⟩ (by decide) (by decide) (by decide) (by decide)
    (by decide) (by decide) (by decide)

/-! ## C7 — alias-cycle detection -/

/-- Splitting an iterated lookup. -/
theorem iterG_add (g : List (String × String)) (a : Nat) :
    ∀ (b : Nat) (n : String), iterG g (a + b) n = (iterG g a n).bind (iterG g b) := by
  induction a with
  | zero =>
    intro b n
    simp [iterG, Nat.zero_add]
  | succ a ih =>
    intro b n
    have : a + 1 + b = (a + b) + 1 := by omega
    rw [this]
    cases hl : lookupG g n with
    | none => simp [iterG, hl]
    | some m => simp [iterG, hl, ih]

/-- One hop off an iterated lookup. -/
theorem iterG_shift (g : List (String × String)) (n next : String) (j : Nat)
    (h : lookupG g n = some next) : iterG g (j + 1) n = iterG g j next := by
  simp [iterG, h]

/-- Going around a cycle any number of times returns to its start. -/
theorem iterG_cycle_mul (g : List (String × String)) (c : String) (k : Nat)
    (hcyc : iterG g (k + 1) c = some c) :
    ∀ q, iterG g (q * (k + 1)) c = some c := by
  intro q
  induction q with
  | zero => simp [iterG]
  | succ q ih =>
    have : (q + 1) * (k + 1) = q * (k + 1) + (k + 1) := by ring
    rw [this, iterG_add, ih]
    simpa using hcyc

/-- A successful long walk has successful prefixes. -/
theorem iterG_isSome_of_le (g : List (String × String)) (n : String) (a b : Nat)
    (hab : a ≤ b) (h : (iterG g b n).isSome) : (iterG g a n).isSome := by
  have hb : b = a + (b - a) := by omega
  rw [hb, iterG_add] at h
  cases ha : iterG g a n with
  | none => rw [ha] at h; cases h
  | some m => simp

/-- On a cycle, the whole forward orbit stays defined. -/
theorem iterG_orbit_total (g : List (String × String)) (c : String) (k : Nat)
    (hcyc : iterG g (k + 1) c = some c) : ∀ j, (iterG g j c).isSome := by
  intro j
  have hle : j ≤ j * (k + 1) := Nat.le_mul_of_pos_right j (Nat.succ_pos k)
  exact iterG_isSome_of_le g c j (j * (k + 1)) hle
    (by rw [iterG_cycle_mul g c k hcyc j]; rfl)

/-- A node whose lookup succeeds is a key of the graph. -/
theorem lookupG_mem_keys (g : List (String × String)) (n next : String)
    (h : lookupG g n = some next) : n ∈ graphKeys g := by
  unfold lookupG at h
  cases hf : g.find? (fun p => p.1 == n) with
  | none => rw [hf] at h; cases h
  | some pr =>
    have h1 : pr.1 = n := by simpa using List.find?_some hf
    have h2 : pr ∈ g := List.mem_of_find?_eq_some hf
    exact h1 ▸ List.mem_map_of_mem Prod.fst h2

/-- The inner loop of `_detect_alias_cycles` reports a cycle whenever the
walk starts on one and enough fuel remains; the source loop can append each
graph key to the path at most once, so `|keys \ path|` bounds the remaining
iterations and the fuel `graph.length + 1` used by `detectAliasCycles` is
never exhausted. -/
theorem walkAlias_isSome (g : List (String × String)) :
    ∀ (fuel : Nat) (path : List String) (node : String),
      (∀ j, (iterG g j node).isSome) →
      ((graphKeys g).toFinset \ path.toFinset).card < fuel →
      (walkAlias g fuel path node).isSome := by
  intro fuel
  induction fuel with
  | zero =>
    intro path node _ hc
    exact absurd hc (Nat.not_lt_zero _)
  | succ fuel ih =>
    intro path node horb hc
    have h1 := horb 1
    cases hl : lookupG g node with
    | none => simp [iterG, hl] at h1
    | some next =>
      simp only [walkAlias, hl]
      by_cases hp : node ∈ path
      · simp [hp]
      · rw [if_neg hp]
        apply ih (path ++ [node]) next
        · intro j
          have := horb (j + 1)
          rwa [iterG_shift g node next j hl] at this
        · have hkey : node ∈ graphKeys g := lookupG_mem_keys g node next hl
          have hmem : node ∈ (graphKeys g).toFinset \ path.toFinset := by
            rw [Finset.mem_sdiff, List.mem_toFinset, List.mem_toFinset]
            exact ⟨hkey, hp⟩
          have hsub : (graphKeys g).toFinset \ (path ++ [node]).toFinset
              ⊆ ((graphKeys g).toFinset \ path.toFinset).erase node := by
            intro y hy
            rw [Finset.mem_sdiff, List.mem_toFinset, List.mem_toFinset,
              List.mem_append] at hy
            push_neg at hy
            rw [Finset.mem_erase, Finset.mem_sdiff, List.mem_toFinset, List.mem_toFinset]
            exact ⟨by simpa using hy.2.2, hy.1, hy.2.1⟩
          have hle := Finset.card_le_card hsub
          have hlt := Finset.card_erase_lt_of_mem hmem
          omega

/-- Whatever the walk reports ends with a name already on the reported
path: the chain is `path ++ [node]` with `node ∈ path`. -/
theorem walkAlias_some_shape (g : List (String × String)) :
    ∀ (fuel : Nat) (path : List String) (node : String) (chain : List String),
      walkAlias g fuel path node = some chain →
      ∃ pre x, chain = pre ++ [x] ∧ x ∈ pre := by
  intro fuel
  induction fuel with
  | zero =>
    intro path node chain h
    cases h
  | succ fuel ih =>
    intro path node chain h
    cases hl : lookupG g node with
    | none =>
      simp only [walkAlias, hl] at h
      cases h
    | some next =>
      simp only [walkAlias, hl] at h
      by_cases hp : node ∈ path
      · rw [if_pos hp] at h
        injection h with h
        exact ⟨path, node, h.symm, hp⟩
      · rw [if_neg hp] at h
        exact ih (path ++ [node]) next chain h

/-- `findSome?` succeeds once any member succeeds. -/
theorem findSome?_isSome_of_mem (f : α → Option β) :
    ∀ (l : List α) (a : α), a ∈ l → (f a).isSome → (l.findSome? f).isSome := by
  intro l
  induction l with
  | nil =>
    intro a ha
    cases ha
  | cons x rest ih =>
    intro a ha hf
    cases hfx : f x with
    | some b => simp [List.findSome?_cons, hfx]
    | none =>
      rcases List.mem_cons.mp ha with rfl | ha
      · rw [hfx] at hf
        cases hf
      · rw [List.findSome?_cons, hfx]
        exact ih a ha hf

/-- What `findSome?` returns, some member returned. -/
theorem exists_of_findSome?_eq_some (f : α → Option β) :
    ∀ (l : List α) (b : β), l.findSome? f = some b → ∃ a ∈ l, f a = some b := by
  intro l
  induction l with
  | nil =>
    intro b h
    cases h
  | cons x rest ih =>
    intro b h
    rw [List.findSome?_cons] at h
    cases hfx : f x with
    | some c =>
      rw [hfx] at h
      injection h with h
      exact ⟨x, by simp, by rw [hfx, h]⟩
    | none =>
      rw [hfx] at h
      obtain ⟨a, ha, hfa⟩ := ih b h
      exact ⟨a, by simp [ha], hfa⟩

/-- C7.  Whenever the alias graph built by `_detect_alias_cycles` has a
cycle — some name `c` returns to itself after `k + 1` lookups — the
detector raises a cyclic-alias error; every chain it can report ends with
the repeated name (it is the walked path with the revisited node appended,
so it names each alias the walk crossed, the full cycle included, in
order); and on the spec's example `A -> B -> A`, the whole of
`validate_definition` raises the cyclic-alias error whose reported path is
exactly `A -> B -> A`. -/
theorem c7_cyclic_alias_detection (aliases : List AliasDef) (c : String) (k : Nat)
    (hcyc : iterG (mkAliasGraph aliases) (k + 1) c = some c) :
    (∃ chain, detectAliasCycles aliases = some chain)
  ∧ (∀ chain, detectAliasCycles aliases = some chain →
      ∃ pre x, chain = pre ++ [x] ∧ x ∈ pre)
  ∧ validateDefinition abCycleDefn = .error (VErr.cyclicAlias ["A", "B", "A"]) := by
  refine ⟨?_, ?_, rfl⟩
  · have horb := iterG_orbit_total (mkAliasGraph aliases) c k hcyc
    have h1 := horb 1
    have hkey : c ∈ graphKeys (mkAliasGraph aliases) := by
      cases hl : lookupG (mkAliasGraph aliases) c with
      | none => simp [iterG, hl] at h1
      | some next => exact lookupG_mem_keys (mkAliasGraph aliases) c next hl
    have hcard : ((graphKeys (mkAliasGraph aliases)).toFinset \ ([] : List String).toFinset).card
        < (mkAliasGraph aliases).length + 1 := by
      have h2 : (graphKeys (mkAliasGraph aliases)).toFinset.card
          ≤ (graphKeys (mkAliasGraph aliases)).length := (graphKeys (mkAliasGraph aliases)).toFinset_card_le
      have h3 : (graphKeys (mkAliasGraph aliases)).length = (mkAliasGraph aliases).length :=
        List.length_map _ _
      simp only [List.toFinset_nil, Finset.sdiff_empty]
      omega
    have hwalk := walkAlias_isSome (mkAliasGraph aliases)
      ((mkAliasGraph aliases).length + 1) [] c horb hcard
    have := findSome?_isSome_of_mem
      (fun root => walkAlias (mkAliasGraph aliases) ((mkAliasGraph aliases).length + 1) [] root)
      (graphKeys (mkAliasGraph aliases)) c hkey hwalk
    exact Option.isSome_iff_exists.mp this
  · intro chain hchain
    obtain ⟨root, hroot, hw⟩ := exists_of_findSome?_eq_some
      (fun root => walkAlias (mkAliasGraph aliases) ((mkAliasGraph aliases).length + 1) [] root)
      (graphKeys (mkAliasGraph aliases)) chain hchain
    exact walkAlias_some_shape (mkAliasGraph aliases)
      ((mkAliasGraph aliases).length + 1) [] root chain hw

/-- The C7 theorem at the concrete cycle `A -> B -> A` (with `k = 1`:
two lookups return `A` to itself). -/
theorem c7_cyclic_alias_detection_witness :
    (∃ chain, detectAliasCycles abCycleDefn.types = some chain)
  ∧ (∀ chain, detectAliasCycles abCycleDefn.types = some chain →
      ∃ pre x, chain = pre ++ [x] ∧ x ∈ pre)
  ∧ validateDefinition abCycleDefn = .error (VErr.cyclicAlias ["A", "B", "A"]) :=
  c7_cyclic_alias_detection abCycleDefn.types "A" 1 (by decide)

end AntelopeRs
